import Mathlib

/-!
Verification of extract_text_model.py: extraction of the text-only language
model from a Qwen3-VL sharded checkpoint.

Strings of the source are modelled as lists of characters, JSON documents as
an inductive value type with objects as ordered association lists (Python
dicts preserve insertion order), tensor payloads as byte lists, and the
filesystem reads of the script as explicit parameters.  Fallible operations
(missing files, missing tensors, ill-typed documents) return Option.
-/

abbrev Name := List Char
abbrev ShardId := List Char
abbrev Key := List Char
abbrev Payload := List Nat

/-- The source prefix identifying language-model weights
(source line 86: "model.language_model."). -/
def srcPfx : Name := "model.language_model.".toList

/-- The replacement prefix (source line 113: "model."). -/
def newPfx : Name := "model.".toList

/-- The exact-match exception name (source line 86: "lm_head.weight"). -/
def lmHeadName : Name := "lm_head.weight".toList

/-- Tensor Name Filter, keep decision (source line 86):
weight_name.startswith("model.language_model.") or weight_name == "lm_head.weight". -/
def keepName (n : Name) : Bool :=
  srcPfx.isPrefixOf n || n == lmHeadName

/-- Tensor Name Filter, rename (source lines 111-113): if the name starts with
the source prefix, the new name is "model." plus the remainder after the
prefix; otherwise the name is unchanged. -/
def renameName (n : Name) : Name :=
  if srcPfx.isPrefixOf n then newPfx ++ n.drop srcPfx.length else n

theorem isPrefixOf_eq_true_iff {l1 l2 : Name} :
    l1.isPrefixOf l2 = true ↔ l1 <+: l2 :=
  List.isPrefixOf_iff_prefix

theorem keepName_iff (n : Name) :
    keepName n = true ↔ (srcPfx <+: n ∨ n = lmHeadName) := by
  simp only [keepName, Bool.or_eq_true, beq_iff_eq, isPrefixOf_eq_true_iff]

theorem append_drop_of_prefixed {n : Name} (h : srcPfx <+: n) :
    srcPfx ++ n.drop srcPfx.length = n := by
  obtain ⟨t, rfl⟩ := h
  rw [List.drop_left]

theorem renameName_of_prefixed {n : Name} (h : srcPfx <+: n) :
    renameName n = newPfx ++ n.drop srcPfx.length := by
  simp [renameName, isPrefixOf_eq_true_iff.2 h]

theorem renameName_of_not_prefixed {n : Name} (h : ¬ srcPfx <+: n) :
    renameName n = n := by
  simp only [renameName, ite_eq_right_iff]
  intro hb
  exact absurd (isPrefixOf_eq_true_iff.1 hb) h

theorem not_prefixed_lmHead : ¬ srcPfx <+: lmHeadName := by
  intro h
  exact absurd (isPrefixOf_eq_true_iff.2 h) (by decide)

/-- Renaming is injective on the names the filter keeps. -/
theorem renameName_injOn_kept {n₁ n₂ : Name}
    (h₁ : keepName n₁ = true) (h₂ : keepName n₂ = true)
    (h : renameName n₁ = renameName n₂) : n₁ = n₂ := by
  rcases (keepName_iff n₁).1 h₁ with p₁ | e₁
  · rcases (keepName_iff n₂).1 h₂ with p₂ | e₂
    · rw [renameName_of_prefixed p₁, renameName_of_prefixed p₂] at h
      have hd := List.append_cancel_left h
      rw [← append_drop_of_prefixed p₁, ← append_drop_of_prefixed p₂, hd]
    · subst e₂
      rw [renameName_of_prefixed p₁, renameName_of_not_prefixed not_prefixed_lmHead] at h
      exact absurd (isPrefixOf_eq_true_iff.2 ⟨_, h⟩ :
        newPfx.isPrefixOf lmHeadName = true) (by decide)
  · subst e₁
    rcases (keepName_iff n₂).1 h₂ with p₂ | e₂
    · rw [renameName_of_prefixed p₂, renameName_of_not_prefixed not_prefixed_lmHead] at h
      exact absurd (isPrefixOf_eq_true_iff.2 ⟨_, h.symm⟩ :
        newPfx.isPrefixOf lmHeadName = true) (by decide)
    · rw [e₂]

/-- C1: the Tensor Name Filter keeps a qualified tensor name if and only if it
starts (anchored at position zero) with "model.language_model." or is exactly
"lm_head.weight"; a name starting with the prefix is renamed to "model."
followed by the remainder after the prefix, byte-identical; the exception name
is kept unchanged; every other name, including one containing the prefix only
as a non-initial substring, is not kept. -/
theorem C1_tensor_name_filter (n : Name) :
    (keepName n = true ↔ (srcPfx <+: n ∨ n = lmHeadName))
    ∧ (srcPfx <+: n →
        renameName n = newPfx ++ n.drop srcPfx.length
        ∧ srcPfx ++ n.drop srcPfx.length = n)
    ∧ (¬ srcPfx <+: n → n ≠ lmHeadName → keepName n = false)
    ∧ (n = lmHeadName → renameName n = n) := by
  refine ⟨keepName_iff n, fun hp => ⟨renameName_of_prefixed hp, append_drop_of_prefixed hp⟩,
    fun hnp hne => ?_, fun he => ?_⟩
  · rcases Bool.eq_false_or_eq_true (keepName n) with ht | hf
    · rcases (keepName_iff n).1 ht with p | e
      · exact absurd p hnp
      · exact absurd e hne
    · exact hf
  · subst he
    exact renameName_of_not_prefixed not_prefixed_lmHead

theorem C1_tensor_name_filter_witness :
    keepName "model.language_model.layers.0.weight".toList = true
    ∧ renameName "model.language_model.layers.0.weight".toList
        = "model.layers.0.weight".toList
    ∧ keepName "x.model.language_model.q".toList = false := by
  have h := C1_tensor_name_filter "model.language_model.layers.0.weight".toList
  have h2 := C1_tensor_name_filter "x.model.language_model.q".toList
  refine ⟨h.1.mpr (Or.inl (by decide)), ?_, h2.2.2.1 (by decide) (by decide)⟩
  have hr := (h.2.1 (by decide)).1
  rw [hr]
  decide

/-- C10: the rename function is injective on the set of names kept by the
filter: two distinct kept names always rename to distinct identifiers, so a
rename collision between distinct source names can never occur. -/
theorem C10_rename_injective (n₁ n₂ : Name)
    (h₁ : keepName n₁ = true) (h₂ : keepName n₂ = true) (hne : n₁ ≠ n₂) :
    renameName n₁ ≠ renameName n₂ :=
  fun h => hne (renameName_injOn_kept h₁ h₂ h)

theorem C10_rename_injective_witness :
    renameName "model.language_model.embed_tokens.weight".toList
      ≠ renameName "lm_head.weight".toList :=
  C10_rename_injective _ _ (by decide) (by decide) (by decide)

/-! JSON documents.  Python dicts are modelled as ordered association lists;
numbers as rationals; d.get(k, default) as lookup with a fallback. -/

inductive JVal where
  | str : List Char → JVal
  | num : ℚ → JVal
  | bool : Bool → JVal
  | null : JVal
  | arr : List JVal → JVal
  | obj : List (Key × JVal) → JVal

/-- Python dict.get(k, default). -/
def jget (o : List (Key × JVal)) (k : Key) (d : JVal) : JVal :=
  (o.lookup k).getD d

/-- Coerce a JSON value to an object; any other shape would make the Python
attribute accesses that follow raise. -/
def asObj : JVal → Option (List (Key × JVal))
  | JVal.obj o => some o
  | _ => none

/-- vl_config.get("text_config", \x7b\x7d) (source line 31), requiring the
result to be an object since it is immediately used as a dict. -/
def getTextCfg (vl_config : List (Key × JVal)) : Option (List (Key × JVal)) :=
  match vl_config.lookup "text_config".toList with
  | none => some []
  | some v => asObj v

/-- create_text_config (source lines 23-61), with the file read of config.json
modelled as the parsed vl_config parameter. -/
def create_text_config (vl_config : List (Key × JVal)) :
    Option (List (Key × JVal)) :=
  (getTextCfg vl_config).map (fun text_cfg =>
    [ ("architectures".toList, JVal.arr [JVal.str "Qwen3ForCausalLM".toList]),
      ("attention_bias".toList, jget text_cfg "attention_bias".toList (JVal.bool false)),
      ("attention_dropout".toList, jget text_cfg "attention_dropout".toList (JVal.num 0)),
      ("bos_token_id".toList, jget text_cfg "bos_token_id".toList (JVal.num 151643)),
      ("eos_token_id".toList, jget text_cfg "eos_token_id".toList (JVal.num 151645)),
      ("head_dim".toList, jget text_cfg "head_dim".toList (JVal.num 128)),
      ("hidden_act".toList, jget text_cfg "hidden_act".toList (JVal.str "silu".toList)),
      ("hidden_size".toList, jget text_cfg "hidden_size".toList (JVal.num 4096)),
      ("initializer_range".toList, jget text_cfg "initializer_range".toList (JVal.num (1/50))),
      ("intermediate_size".toList, jget text_cfg "intermediate_size".toList (JVal.num 12288)),
      ("max_position_embeddings".toList, jget text_cfg "max_position_embeddings".toList (JVal.num 40960)),
      ("model_type".toList, JVal.str "qwen3".toList),
      ("num_attention_heads".toList, jget text_cfg "num_attention_heads".toList (JVal.num 32)),
      ("num_hidden_layers".toList, jget text_cfg "num_hidden_layers".toList (JVal.num 36)),
      ("num_key_value_heads".toList, jget text_cfg "num_key_value_heads".toList (JVal.num 8)),
      ("rms_norm_eps".toList, jget text_cfg "rms_norm_eps".toList (JVal.num (1/1000000))),
      ("rope_scaling".toList, jget text_cfg "rope_scaling".toList JVal.null),
      ("rope_theta".toList, jget text_cfg "rope_theta".toList (JVal.num 1000000)),
      ("tie_word_embeddings".toList, JVal.bool false),
      ("torch_dtype".toList, JVal.str "bfloat16".toList),
      ("transformers_version".toList, JVal.str "4.51.0".toList),
      ("use_cache".toList, JVal.bool true),
      ("vocab_size".toList, jget text_cfg "vocab_size".toList (JVal.num 151936)),
      ("use_sliding_window".toList, JVal.bool false) ])

/-- C5: for every source configuration document, whatever its content, the
derived target configuration has tie_word_embeddings = false and
use_sliding_window = false. -/
theorem C5_fixed_fields (vl_config cfg : List (Key × JVal))
    (h : create_text_config vl_config = some cfg) :
    cfg.lookup "tie_word_embeddings".toList = some (JVal.bool false)
    ∧ cfg.lookup "use_sliding_window".toList = some (JVal.bool false) := by
  unfold create_text_config at h
  cases hg : getTextCfg vl_config with
  | none => rw [hg] at h; exact absurd h (by simp)
  | some text_cfg =>
      rw [hg] at h
      simp only [Option.map_some'] at h
      injection h with h
      subst h
      exact ⟨rfl, rfl⟩

def cfgOfEmpty : List (Key × JVal) := (create_text_config []).getD []

theorem C5_fixed_fields_witness :
    cfgOfEmpty.lookup "tie_word_embeddings".toList = some (JVal.bool false)
    ∧ cfgOfEmpty.lookup "use_sliding_window".toList = some (JVal.bool false) :=
  C5_fixed_fields [] cfgOfEmpty rfl

/-- C6: a source whose text sub-document lacks rope_theta derives
rope_theta = 1000000; one whose text sub-document has rope_theta = 5000000
derives rope_theta = 5000000. -/
theorem C6_rope_theta (vl_config text_cfg cfg : List (Key × JVal))
    (hg : getTextCfg vl_config = some text_cfg)
    (hc : create_text_config vl_config = some cfg) :
    (text_cfg.lookup "rope_theta".toList = none →
       cfg.lookup "rope_theta".toList = some (JVal.num 1000000))
    ∧ (text_cfg.lookup "rope_theta".toList = some (JVal.num 5000000) →
       cfg.lookup "rope_theta".toList = some (JVal.num 5000000)) := by
  unfold create_text_config at hc
  rw [hg] at hc
  simp only [Option.map_some'] at hc
  injection hc with hc
  subst hc
  constructor
  · intro h
    show some (jget text_cfg "rope_theta".toList (JVal.num 1000000))
        = some (JVal.num 1000000)
    simp only [jget]
    rw [h]
    rfl
  · intro h
    show some (jget text_cfg "rope_theta".toList (JVal.num 1000000))
        = some (JVal.num 5000000)
    simp only [jget]
    rw [h]
    rfl

theorem C6_rope_theta_witness :
    cfgOfEmpty.lookup "rope_theta".toList = some (JVal.num 1000000) :=
  (C6_rope_theta [] [] cfgOfEmpty rfl rfl).1 rfl

/-- Generation-settings document built by save_text_model (source lines
155-163): the two token ids are read from the target config (a Python
KeyError, modelled as none, if absent) and the sampling defaults are fixed. -/
def gen_config (config : List (Key × JVal)) : Option (List (Key × JVal)) := do
  let bos ← config.lookup "bos_token_id".toList
  let eos ← config.lookup "eos_token_id".toList
  pure [ ("bos_token_id".toList, bos),
         ("eos_token_id".toList, eos),
         ("do_sample".toList, JVal.bool true),
         ("temperature".toList, JVal.num (7/10)),
         ("top_p".toList, JVal.num (4/5)),
         ("top_k".toList, JVal.num 20),
         ("repetition_penalty".toList, JVal.num (21/20)) ]

/-- C8: the generation-settings document has bos_token_id and eos_token_id
equal to the target config's values, and exactly the fixed sampling defaults
do_sample = true, temperature = 0.7, top_p = 0.8, top_k = 20,
repetition_penalty = 1.05 (its key set is exactly these seven keys). -/
theorem C8_generation_config (config g : List (Key × JVal))
    (h : gen_config config = some g) :
    g.lookup "bos_token_id".toList = config.lookup "bos_token_id".toList
    ∧ g.lookup "eos_token_id".toList = config.lookup "eos_token_id".toList
    ∧ g.lookup "do_sample".toList = some (JVal.bool true)
    ∧ g.lookup "temperature".toList = some (JVal.num (7/10))
    ∧ g.lookup "top_p".toList = some (JVal.num (4/5))
    ∧ g.lookup "top_k".toList = some (JVal.num 20)
    ∧ g.lookup "repetition_penalty".toList = some (JVal.num (21/20))
    ∧ g.map Prod.fst
        = ["bos_token_id".toList, "eos_token_id".toList, "do_sample".toList,
           "temperature".toList, "top_p".toList, "top_k".toList,
           "repetition_penalty".toList] := by
  unfold gen_config at h
  cases hb : config.lookup "bos_token_id".toList with
  | none => rw [hb] at h; exact absurd h (by simp)
  | some bos =>
      cases he : config.lookup "eos_token_id".toList with
      | none => rw [hb, he] at h; exact absurd h (by simp)
      | some eos =>
          rw [hb, he] at h
          simp only [Option.bind_some, Option.pure_def] at h
          injection h with h
          subst h
          exact ⟨rfl, rfl, rfl, rfl, rfl, rfl, rfl, rfl⟩

def genOfEmpty : List (Key × JVal) := (gen_config cfgOfEmpty).getD []

theorem C8_generation_config_witness :
    genOfEmpty.lookup "temperature".toList = some (JVal.num (7/10))
    ∧ genOfEmpty.lookup "bos_token_id".toList = some (JVal.num 151643) := by
  have h := C8_generation_config cfgOfEmpty genOfEmpty rfl
  exact ⟨h.2.2.2.1, by rw [h.1]; rfl⟩

/-- Shard Index Reader (source lines 74-78): index.get("weight_map", \x7b\x7d)
followed by iteration over its items; the weight map must be an object of
string shard names for the walk over items and the later path joins to
succeed. -/
def getWeightMap (index : List (Key × JVal)) :
    Option (List (Name × ShardId)) :=
  match index.lookup "weight_map".toList with
  | none => some []
  | some v => do
      let o ← asObj v
      o.mapM (fun p => match p.2 with
        | JVal.str s => some (p.1, s)
        | _ => none)

/-- C4 amended: when a parsed manifest lacks the top-level "weight_map" key
the reader does not fail; it proceeds with the empty weight map. -/
theorem C4_weight_map_default (index : List (Key × JVal))
    (h : index.lookup "weight_map".toList = none) :
    getWeightMap index = some [] := by
  unfold getWeightMap
  rw [h]

theorem C4_weight_map_default_witness :
    getWeightMap [("other_key".toList, JVal.num 3)] = some [] :=
  C4_weight_map_default _ rfl

/-- C4 counterexample: a manifest that parses as a key-value structure but has
no "weight_map" key does not make the reader fail; extraction proceeds as if
the index were empty, contradicting the claimed IndexMalformed failure. -/
theorem C4_no_failure_counterexample :
    ([( "model_size".toList, JVal.num 8 )].lookup "weight_map".toList = none)
    ∧ getWeightMap [("model_size".toList, JVal.num 8)] = some [] := by
  exact ⟨rfl, rfl⟩

/-! Weight extraction (source lines 64-117).  Shards are modelled as an
association list from shard file name to shard contents; a missing shard file
or a missing tensor makes the corresponding Python call raise, modelled as
none. -/

/-- One step of the dict-of-lists update weights_by_shard[shard].append(name),
creating the bucket on first use (source lines 95-97). -/
def addToGroup (gs : List (ShardId × List Name)) (s : ShardId) (n : Name) :
    List (ShardId × List Name) :=
  match gs with
  | [] => [(s, [n])]
  | g :: rest => if g.1 == s then (g.1, g.2 ++ [n]) :: rest
                 else g :: addToGroup rest s n

/-- Grouping of the kept weight names by source shard (source lines 84-97):
the kept names are collected walking the weight map in order, then bucketed by
shard; for a name drawn from the weight map, weight_map[name] is its paired
shard. -/
def weights_by_shard (weight_map : List (Name × ShardId)) :
    List (ShardId × List Name) :=
  (weight_map.filter (fun p => keepName p.1)).foldl
    (fun gs p => addToGroup gs p.2 p.1) []

/-- OrderedDict assignment d[k] = v (source line 115): overwrite in place when
the key exists, append otherwise. -/
def insertOD (m : List (Name × Payload)) (k : Name) (v : Payload) :
    List (Name × Payload) :=
  if m.any (fun p => p.1 == k) then
    m.map (fun p => if p.1 == k then (k, v) else p)
  else m ++ [(k, v)]

/-- Reading the required tensors of one shard (source lines 106-115): each
tensor is fetched (raising, i.e. none, if the shard lacks it), renamed and
inserted into the ordered collection. -/
def processShard (content : List (Name × Payload)) (names : List Name)
    (acc : List (Name × Payload)) : Option (List (Name × Payload)) :=
  names.foldlM (fun acc n => (content.lookup n).map
    (fun t => insertOD acc (renameName n) t)) acc

/-- extract_text_weights (source lines 64-117), with the index read modelled
by the weight_map parameter and the shard directory by the shards parameter. -/
def extract_text_weights (weight_map : List (Name × ShardId))
    (shards : List (ShardId × List (Name × Payload))) :
    Option (List (Name × Payload)) :=
  (weights_by_shard weight_map).foldlM
    (fun acc g => (shards.lookup g.1).bind
      (fun content => processShard content g.2 acc)) []

/-- Every kept name of the weight map can be read from its shard: the shard
file exists and contains the tensor.  This is the consistency premise of the
round-trip property. -/
def consistent (weight_map : List (Name × ShardId))
    (shards : List (ShardId × List (Name × Payload))) : Bool :=
  weight_map.all (fun p => !(keepName p.1) ||
    (match shards.lookup p.2 with
     | some c => (c.lookup p.1).isSome
     | none => false))

/-- The payload the shard set holds for tensor n of shard s. -/
def getPayload (shards : List (ShardId × List (Name × Payload)))
    (s : ShardId) (n : Name) : Payload :=
  ((shards.lookup s).bind (fun c => c.lookup n)).getD []

/-- Two distinct names of the weight map are kept and rename to the same
identifier. -/
def hasRenameCollision (weight_map : List (Name × ShardId)) : Bool :=
  ((weight_map.filter (fun p => keepName p.1)).map Prod.fst).any (fun n =>
    ((weight_map.filter (fun p => keepName p.1)).map Prod.fst).any (fun n' =>
      !(n == n') && (renameName n == renameName n')))

/-- Extraction order as the spec words it: tensors grouped by source shard,
shards in order of first occurrence while walking the index, and within each
shard the tensor names in original index order. -/
def groupSpec : List (Name × ShardId) → List (ShardId × List Name)
  | [] => []
  | p :: rest =>
      (p.2, p.1 :: (rest.filter (fun q => q.2 == p.2)).map Prod.fst)
        :: groupSpec (rest.filter (fun q => !(q.2 == p.2)))
termination_by l => l.length
decreasing_by
  simp_wf
  exact Nat.lt_succ_of_le (List.length_filter_le _ _)

theorem groupSpec_mem {l : List (Name × ShardId)} :
    ∀ g ∈ groupSpec l, ∀ n ∈ g.2, (n, g.1) ∈ l := by
  induction l using groupSpec.induct with
  | case1 => intro g hg; simp [groupSpec] at hg
  | case2 p rest ih =>
      intro g hg n hn
      rw [groupSpec] at hg
      rcases List.mem_cons.1 hg with hg | hg
      · subst hg
        rcases List.mem_cons.1 hn with hn | hn
        · subst hn; exact List.mem_cons_self _ _
        · obtain ⟨q, hq, rfl⟩ := List.mem_map.1 hn
          have hq' := List.mem_filter.1 hq
          have : q.2 = p.2 := by simpa using hq'.2
          exact List.mem_cons_of_mem _ (by rw [← this]; exact hq'.1)
      · have := ih g hg n hn
        exact List.mem_cons_of_mem _ (List.mem_filter.1 this).1

theorem groupSpec_ne_nil {l : List (Name × ShardId)} :
    ∀ g ∈ groupSpec l, g.2 ≠ [] := by
  induction l using groupSpec.induct with
  | case1 => intro g hg; simp [groupSpec] at hg
  | case2 p rest ih =>
      intro g hg
      rw [groupSpec] at hg
      rcases List.mem_cons.1 hg with hg | hg
      · subst hg; simp
      · exact ih g hg

theorem groupSpec_covers {l : List (Name × ShardId)} :
    ∀ p ∈ l, ∃ g ∈ groupSpec l, g.1 = p.2 ∧ p.1 ∈ g.2 := by
  induction l using groupSpec.induct with
  | case1 => intro p hp; simp at hp
  | case2 q rest ih =>
      intro p hp
      rw [groupSpec]
      rcases List.mem_cons.1 hp with hp | hp
      · subst hp
        exact ⟨_, List.mem_cons_self _ _, rfl, List.mem_cons_self _ _⟩
      · by_cases hs : p.2 = q.2
        · refine ⟨_, List.mem_cons_self _ _, hs.symm, ?_⟩
          exact List.mem_cons_of_mem _
            (List.mem_map.2 ⟨p, List.mem_filter.2 ⟨hp, by simp [hs]⟩, rfl⟩)
        · obtain ⟨g, hg, h1, h2⟩ := ih p (List.mem_filter.2 ⟨hp, by simp [hs]⟩)
          exact ⟨g, List.mem_cons_of_mem _ hg, h1, h2⟩

theorem groupSpec_names_perm {l : List (Name × ShardId)} :
    ((groupSpec l).flatMap (fun g => g.2)).Perm (l.map Prod.fst) := by
  induction l using groupSpec.induct with
  | case1 => simp [groupSpec]
  | case2 p rest ih =>
      rw [groupSpec]
      simp only [List.flatMap_cons, List.map_cons]
      refine List.Perm.cons p.1 (List.Perm.trans (List.Perm.append_left _ ih) ?_)
      rw [← List.map_append]
      exact List.Perm.map Prod.fst (List.filter_append_perm _ rest)

/-- Intermediate state of the grouping fold: existing buckets extended by the
remaining walk, followed by the groups of shards not yet seen. -/
def mergeSpec (gs : List (ShardId × List Name)) (l : List (Name × ShardId)) :
    List (ShardId × List Name) :=
  gs.map (fun g => (g.1, g.2 ++ (l.filter (fun p => p.2 == g.1)).map Prod.fst))
    ++ groupSpec (l.filter (fun p => !(gs.any (fun g => g.1 == p.2))))

theorem addToGroup_of_not_mem {gs : List (ShardId × List Name)} {s : ShardId}
    {n : Name} (h : ∀ g ∈ gs, g.1 ≠ s) :
    addToGroup gs s n = gs ++ [(s, [n])] := by
  induction gs with
  | nil => rfl
  | cons g rest ih =>
      have hg : (g.1 == s) = false :=
        beq_eq_false_iff_ne.2 (h g (List.mem_cons_self _ _))
      simp only [addToGroup, hg]
      rw [ih (fun g' hg' => h g' (List.mem_cons_of_mem _ hg'))]
      simp

theorem addToGroup_of_mem {gs : List (ShardId × List Name)} {s : ShardId}
    {n : Name} (hnd : (gs.map Prod.fst).Nodup) (h : s ∈ gs.map Prod.fst) :
    addToGroup gs s n
      = gs.map (fun g => if g.1 = s then (g.1, g.2 ++ [n]) else g) := by
  induction gs with
  | nil => simp at h
  | cons g rest ih =>
      rw [List.map_cons] at hnd
      have hnd' := List.nodup_cons.1 hnd
      by_cases hg : g.1 = s
      · have hb : (g.1 == s) = true := by simp [hg]
        simp only [addToGroup, hb, if_pos, List.map_cons, if_pos hg]
        have hrest : rest.map (fun g' => if g'.1 = s then (g'.1, g'.2 ++ [n]) else g') = rest := by
          have : ∀ g' ∈ rest, (if g'.1 = s then (g'.1, g'.2 ++ [n]) else g') = g' := by
            intro g' hg'
            have : g'.1 ≠ s := by
              intro e
              exact hnd'.1 (by rw [hg, ← e]; exact List.mem_map_of_mem Prod.fst hg')
            simp [this]
          calc rest.map _ = rest.map id := List.map_congr_left this
            _ = rest := List.map_id rest
        rw [hrest, hg]
      · have hb : (g.1 == s) = false := beq_eq_false_iff_ne.2 hg
        have hs : s ∈ rest.map Prod.fst := by
          rcases List.mem_cons.1 h with h | h
          · exact absurd h.symm hg
          · exact h
        simp only [addToGroup, hb, List.map_cons, if_neg hg]
        simp only [Bool.false_eq_true, if_false]
        rw [ih hnd'.2 hs]

theorem mergeSpec_cons_mem {gs : List (ShardId × List Name)}
    {p : Name × ShardId} (rest : List (Name × ShardId))
    (hmem : p.2 ∈ gs.map Prod.fst) :
    mergeSpec (gs.map (fun g => if g.1 = p.2 then (g.1, g.2 ++ [p.1]) else g)) rest
      = mergeSpec gs (p :: rest) := by
  obtain ⟨g0, hg0, hg0e⟩ := List.mem_map.1 hmem
  have hany : gs.any (fun g => g.1 == p.2) = true :=
    List.any_eq_true.2 ⟨g0, hg0, by simp [hg0e]⟩
  have hkeys : ∀ g : ShardId × List Name,
      (if g.1 = p.2 then (g.1, g.2 ++ [p.1]) else g).1 = g.1 := by
    intro g; by_cases h : g.1 = p.2 <;> simp [h]
  unfold mergeSpec
  congr 1
  · rw [List.map_map]
    apply List.map_congr_left
    intro g hg
    simp only [Function.comp_apply, List.filter_cons]
    by_cases h : g.1 = p.2
    · have hb : (p.2 == g.1) = true := by simp [h.symm]
      simp [h, hb, List.append_assoc]
    · have hb : (p.2 == g.1) = false := by
        simp only [beq_eq_false_iff_ne]
        exact fun e => h e.symm
      simp [h, hb]
  · rw [List.filter_cons]
    simp only [hany, Bool.not_true, Bool.false_eq_true, if_false]
    congr 1
    apply List.filter_congr
    intro q hq
    rw [List.any_map]
    have : ((fun g : ShardId × List Name => g.1 == q.2)
        ∘ (fun g => if g.1 = p.2 then (g.1, g.2 ++ [p.1]) else g))
        = (fun g => g.1 == q.2) := by
      funext g
      simp only [Function.comp_apply, hkeys]
    rw [this]

theorem mergeSpec_cons_not_mem {gs : List (ShardId × List Name)}
    {p : Name × ShardId} (rest : List (Name × ShardId))
    (hmem : p.2 ∉ gs.map Prod.fst) :
    mergeSpec (gs ++ [(p.2, [p.1])]) rest = mergeSpec gs (p :: rest) := by
  have hany : gs.any (fun g => g.1 == p.2) = false := by
    rcases Bool.eq_false_or_eq_true (gs.any (fun g => g.1 == p.2)) with ht | hf
    · obtain ⟨g0, hg0, he⟩ := List.any_eq_true.1 ht
      exact absurd (List.mem_map.2 ⟨g0, hg0, by simpa using he⟩) hmem
    · exact hf
  have hqnotin : ∀ s : ShardId, s = p.2 →
      gs.any (fun g => g.1 == s) = false := by
    intro s hs; rw [hs]; exact hany
  unfold mergeSpec
  rw [List.map_append, List.filter_cons]
  simp only [hany, Bool.not_false, if_pos]
  rw [groupSpec, List.append_assoc]
  congr 1
  · apply List.map_congr_left
    intro g hg
    rw [List.filter_cons]
    have hb : (p.2 == g.1) = false := by
      simp only [beq_eq_false_iff_ne]
      intro e
      exact hmem (by rw [e]; exact List.mem_map_of_mem Prod.fst hg)
    simp [hb]
  · have h1 : rest.filter (fun q => q.2 == p.2)
        = rest.filter (fun a =>
            (a.2 == p.2) && !(gs.any (fun g => g.1 == a.2))) := by
      apply List.filter_congr
      intro q hq
      by_cases hS : q.2 = p.2
      · have hb1 : (q.2 == p.2) = true := by simp [hS]
        have hb2 : gs.any (fun g => g.1 == q.2) = false := hqnotin q.2 hS
        simp [hb1, hb2]
      · have hb1 : (q.2 == p.2) = false := beq_eq_false_iff_ne.2 hS
        simp [hb1]
    have h2 : rest.filter (fun q => !((gs ++ [(p.2, [p.1])]).any (fun g => g.1 == q.2)))
        = rest.filter (fun a =>
            (!(a.2 == p.2)) && !(gs.any (fun g => g.1 == a.2))) := by
      apply List.filter_congr
      intro q hq
      by_cases hS : q.2 = p.2
      · have hb1 : (q.2 == p.2) = true := by simp [hS]
        have hb2 : (p.2 == q.2) = true := by simp [hS.symm]
        simp [hb1, hb2, List.any_append]
      · have hb1 : (q.2 == p.2) = false := beq_eq_false_iff_ne.2 hS
        have hb2 : (p.2 == q.2) = false := by
          simp only [beq_eq_false_iff_ne]; exact fun e => hS e.symm
        simp [hb1, hb2, List.any_append]
    simp only [List.map_cons, List.map_nil, List.nil_append, List.singleton_append,
      List.filter_filter]
    rw [← h1, ← h2]

theorem foldl_addToGroup_eq_mergeSpec (l : List (Name × ShardId)) :
    ∀ gs : List (ShardId × List Name), (gs.map Prod.fst).Nodup →
      l.foldl (fun gs p => addToGroup gs p.2 p.1) gs = mergeSpec gs l := by
  induction l with
  | nil =>
      intro gs hnd
      simp [mergeSpec, groupSpec]
  | cons p rest ih =>
      intro gs hnd
      rw [List.foldl_cons]
      by_cases hmem : p.2 ∈ gs.map Prod.fst
      · rw [addToGroup_of_mem hnd hmem]
        rw [ih _ ?_]
        · exact mergeSpec_cons_mem rest hmem
        · have : (gs.map (fun g => if g.1 = p.2 then (g.1, g.2 ++ [p.1]) else g)).map Prod.fst
              = gs.map Prod.fst := by
            rw [List.map_map]
            apply List.map_congr_left
            intro g hg
            by_cases h : g.1 = p.2 <;> simp [h]
          rw [this]
          exact hnd
      · rw [addToGroup_of_not_mem (fun g hg e => hmem (by rw [← e]; exact List.mem_map_of_mem Prod.fst hg))]
        rw [ih _ ?_]
        · exact mergeSpec_cons_not_mem rest hmem
        · rw [List.map_append]
          simp only [List.map_cons, List.map_nil]
          rw [List.nodup_append]
          exact ⟨hnd, List.nodup_singleton _, by
            intro a ha hb
            simp only [List.mem_singleton] at hb
            exact hmem (hb ▸ ha)⟩

/-- The dict-of-lists grouping of the source equals the order stated by the
spec: groups by shard, shards in first-occurrence order, names in index
order. -/
theorem weights_by_shard_eq_groupSpec (weight_map : List (Name × ShardId)) :
    weights_by_shard weight_map
      = groupSpec (weight_map.filter (fun p => keepName p.1)) := by
  unfold weights_by_shard
  rw [foldl_addToGroup_eq_mergeSpec _ [] (by simp)]
  unfold mergeSpec
  simp

theorem insertOD_of_not_mem {m : List (Name × Payload)} {k : Name} {v : Payload}
    (h : ∀ p ∈ m, p.1 ≠ k) : insertOD m k v = m ++ [(k, v)] := by
  unfold insertOD
  have ha : m.any (fun p => p.1 == k) = false := by
    rcases Bool.eq_false_or_eq_true (m.any fun p => p.1 == k) with ht | hf
    · obtain ⟨p0, hp0, he⟩ := List.any_eq_true.1 ht
      exact absurd (by simpa using he) (h p0 hp0)
    · exact hf
  simp [ha]

theorem processShard_spec (content : List (Name × Payload)) :
    ∀ (names : List Name) (acc : List (Name × Payload)),
      (∀ n ∈ names, (content.lookup n).isSome = true) →
      (acc.map Prod.fst ++ names.map renameName).Nodup →
      processShard content names acc
        = some (acc ++ names.map
            (fun n => (renameName n, (content.lookup n).getD []))) := by
  intro names
  induction names with
  | nil => intro acc _ _; simp [processShard]
  | cons n ns ih =>
      intro acc hsome hnd
      obtain ⟨t, ht⟩ := Option.isSome_iff_exists.1 (hsome n (List.mem_cons_self _ _))
      have hins : insertOD acc (renameName n) t = acc ++ [(renameName n, t)] := by
        apply insertOD_of_not_mem
        intro p hp e
        have h1 : renameName n ∈ acc.map Prod.fst := by
          rw [← e]; exact List.mem_map_of_mem _ hp
        have hd := (List.nodup_append.1 hnd).2.2
        exact hd h1 (List.mem_map_of_mem renameName (List.mem_cons_self _ _))
      have hnd' : ((acc ++ [(renameName n, t)]).map Prod.fst
          ++ ns.map renameName).Nodup := by
        rw [List.map_append, List.append_assoc]
        simpa using hnd
      have ih' := ih (acc ++ [(renameName n, t)])
        (fun x hx => hsome x (List.mem_cons_of_mem _ hx)) hnd'
      unfold processShard at ih' ⊢
      rw [List.foldlM_cons, ht]
      simp only [Option.map_some', Option.bind_eq_bind, Option.some_bind, hins, ih',
        List.append_assoc, List.map_cons, List.singleton_append, ht, Option.getD_some]

theorem fold_groups_spec (shards : List (ShardId × List (Name × Payload))) :
    ∀ (L : List (ShardId × List Name)) (acc : List (Name × Payload)),
      (∀ g ∈ L, ∃ c, shards.lookup g.1 = some c
        ∧ ∀ n ∈ g.2, (c.lookup n).isSome = true) →
      (acc.map Prod.fst ++ (L.flatMap (fun g => g.2)).map renameName).Nodup →
      L.foldlM (fun acc g => (shards.lookup g.1).bind
          (fun content => processShard content g.2 acc)) acc
        = some (acc ++ L.flatMap (fun g => g.2.map
            (fun n => (renameName n, getPayload shards g.1 n)))) := by
  intro L
  induction L with
  | nil => intro acc _ _; simp
  | cons g L ih =>
      intro acc hex hnd
      obtain ⟨c, hc, hcn⟩ := hex g (List.mem_cons_self _ _)
      have hndg : (acc.map Prod.fst ++ g.2.map renameName).Nodup := by
        have hsub : (acc.map Prod.fst ++ g.2.map renameName).Sublist
            (acc.map Prod.fst ++ ((g :: L).flatMap (fun g => g.2)).map renameName) := by
          apply List.Sublist.append_left
          simp only [List.flatMap_cons, List.map_append]
          exact List.sublist_append_left _ _
        exact List.Nodup.sublist hsub hnd
      have hps := processShard_spec c g.2 acc hcn hndg
      have hpay : ∀ n ∈ g.2, (c.lookup n).getD [] = getPayload shards g.1 n := by
        intro n _
        unfold getPayload
        rw [hc, Option.some_bind]
      have hnd2 : ((acc ++ g.2.map
            (fun n => (renameName n, getPayload shards g.1 n))).map Prod.fst
          ++ (L.flatMap (fun g => g.2)).map renameName).Nodup := by
        rw [List.map_append, List.map_map, List.append_assoc]
        have he : (Prod.fst ∘ fun n => (renameName n, getPayload shards g.1 n))
            = renameName := rfl
        rw [he, ← List.map_append, ← List.flatMap_cons]
        exact hnd
      have ihh := ih (acc ++ g.2.map
          (fun n => (renameName n, getPayload shards g.1 n)))
        (fun g' hg' => hex g' (List.mem_cons_of_mem _ hg')) hnd2
      have hmapeq : g.2.map (fun n => (renameName n, (c.lookup n).getD []))
          = g.2.map (fun n => (renameName n, getPayload shards g.1 n)) := by
        apply List.map_congr_left
        intro n hn
        rw [hpay n hn]
      rw [List.foldlM_cons, hc, Option.some_bind, hps, hmapeq]
      simp only [Option.bind_eq_bind, Option.some_bind, ihh]
      rw [List.flatMap_cons, List.append_assoc]

theorem mem_kept_keep {weight_map : List (Name × ShardId)} {n : Name}
    (h : n ∈ (weight_map.filter (fun p => keepName p.1)).map Prod.fst) :
    keepName n = true := by
  obtain ⟨p, hp, rfl⟩ := List.mem_map.1 h
  simpa using (List.mem_filter.1 hp).2

theorem consistent_spec {weight_map : List (Name × ShardId)}
    {shards : List (ShardId × List (Name × Payload))}
    (hc : consistent weight_map shards = true) :
    ∀ p ∈ weight_map, keepName p.1 = true →
      ∃ c, shards.lookup p.2 = some c ∧ (c.lookup p.1).isSome = true := by
  intro p hp hk
  have h := (List.all_eq_true.1 hc) p hp
  rw [hk] at h
  simp only [Bool.not_true, Bool.false_or] at h
  cases hl : shards.lookup p.2 with
  | none => rw [hl] at h; exact absurd h (by simp)
  | some c => rw [hl] at h; exact ⟨c, rfl, h⟩

theorem lookup_eq_of_mem_of_nodup {m : List (Name × Payload)}
    (hnd : (m.map Prod.fst).Nodup) {k : Name} {v : Payload} (h : (k, v) ∈ m) :
    m.lookup k = some v := by
  induction m with
  | nil => simp at h
  | cons p rest ih =>
      obtain ⟨k', v'⟩ := p
      rw [List.map_cons] at hnd
      have hnd' := List.nodup_cons.1 hnd
      rcases List.mem_cons.1 h with h | h
      · injection h with e1 e2
        subst e1; subst e2
        simp [List.lookup_cons]
      · have hk : (k == k') = false := by
          apply beq_eq_false_iff_ne.2
          intro e
          have hm : k ∈ rest.map Prod.fst := List.mem_map_of_mem Prod.fst h
          exact hnd'.1 (e ▸ hm)
        rw [List.lookup_cons]
        simp only [hk, Bool.false_eq_true, if_false]
        exact ih hnd'.2 h

theorem extract_renamed_nodup {weight_map : List (Name × ShardId)}
    (hn : (weight_map.map Prod.fst).Nodup) :
    (((groupSpec (weight_map.filter (fun p => keepName p.1))).flatMap
        (fun g => g.2)).map renameName).Nodup := by
  have hkn : ((weight_map.filter (fun p => keepName p.1)).map Prod.fst).Nodup :=
    List.Nodup.sublist (List.Sublist.map Prod.fst (List.filter_sublist weight_map)) hn
  have h1 : (((weight_map.filter (fun p => keepName p.1)).map Prod.fst).map renameName).Nodup := by
    apply List.Nodup.map_on
    · intro x hx y hy hxy
      exact renameName_injOn_kept (mem_kept_keep hx) (mem_kept_keep hy) hxy
    · exact hkn
  exact (List.Perm.nodup_iff (List.Perm.map renameName groupSpec_names_perm)).2 h1

theorem groups_premise {weight_map : List (Name × ShardId)}
    {shards : List (ShardId × List (Name × Payload))}
    (hc : consistent weight_map shards = true) :
    ∀ g ∈ groupSpec (weight_map.filter (fun p => keepName p.1)),
      ∃ c, shards.lookup g.1 = some c ∧ ∀ n ∈ g.2, (c.lookup n).isSome = true := by
  intro g hg
  obtain ⟨n0, hn0⟩ : ∃ n, n ∈ g.2 := by
    cases h2 : g.2 with
    | nil => exact absurd h2 (groupSpec_ne_nil g hg)
    | cons a l => exact ⟨a, h2 ▸ List.mem_cons_self a l⟩
  have hf0 := List.mem_filter.1 (groupSpec_mem g hg n0 hn0)
  obtain ⟨c, hcl, _⟩ := consistent_spec hc (n0, g.1) hf0.1 (by simpa using hf0.2)
  refine ⟨c, hcl, ?_⟩
  intro n hnm
  have hf := List.mem_filter.1 (groupSpec_mem g hg n hnm)
  obtain ⟨c', hcl', hsome⟩ := consistent_spec hc (n, g.1) hf.1 (by simpa using hf.2)
  rw [hcl] at hcl'
  injection hcl' with e
  rw [e]
  exact hsome

/-- The value extract_text_weights computes on consistent inputs, written in
the spec's order. -/
def extractExpected (weight_map : List (Name × ShardId))
    (shards : List (ShardId × List (Name × Payload))) : List (Name × Payload) :=
  (groupSpec (weight_map.filter (fun p => keepName p.1))).flatMap
    (fun g => g.2.map (fun n => (renameName n, getPayload shards g.1 n)))

theorem extractExpected_keys (weight_map : List (Name × ShardId))
    (shards : List (ShardId × List (Name × Payload))) :
    (extractExpected weight_map shards).map Prod.fst
      = (groupSpec (weight_map.filter (fun p => keepName p.1))).flatMap
          (fun g => g.2.map renameName) := by
  unfold extractExpected
  simp only [List.map_flatMap, List.map_map]
  rfl

theorem extract_text_weights_spec (weight_map : List (Name × ShardId))
    (shards : List (ShardId × List (Name × Payload)))
    (hn : (weight_map.map Prod.fst).Nodup)
    (hc : consistent weight_map shards = true) :
    extract_text_weights weight_map shards
      = some (extractExpected weight_map shards) := by
  unfold extract_text_weights extractExpected
  rw [weights_by_shard_eq_groupSpec]
  have h := fold_groups_spec shards
    (groupSpec (weight_map.filter (fun p => keepName p.1))) []
    (groups_premise hc)
    (by simp only [List.map_nil, List.nil_append]; exact extract_renamed_nodup hn)
  simpa using h

def exampleWeightMap : List (Name × ShardId) :=
  [ ("model.language_model.layers.0.weight".toList, "shard-00001".toList),
    ("model.visual.patch_embed.weight".toList, "shard-00001".toList),
    ("lm_head.weight".toList, "shard-00002".toList) ]

def exampleShards : List (ShardId × List (Name × Payload)) :=
  [ ("shard-00001".toList,
      [ ("model.language_model.layers.0.weight".toList, [1, 2]),
        ("model.visual.patch_embed.weight".toList, [3]) ]),
    ("shard-00002".toList, [ ("lm_head.weight".toList, [4]) ]) ]

/-- C2: for every shard index and shard set consistent with it, the extracted
collection contains exactly the renamed identifiers of the kept names (same
count and identities, expressed as a permutation of the renamed kept names)
and each payload equals its source payload bit for bit; in particular the
scenario index of the spec yields exactly the keys model.layers.0.weight and
lm_head.weight with their source payloads. -/
theorem C2_round_trip (weight_map : List (Name × ShardId))
    (shards : List (ShardId × List (Name × Payload)))
    (hn : (weight_map.map Prod.fst).Nodup)
    (hc : consistent weight_map shards = true) :
    (∃ m, extract_text_weights weight_map shards = some m
      ∧ (m.map Prod.fst).Perm
          (((weight_map.filter (fun p => keepName p.1)).map Prod.fst).map renameName)
      ∧ ∀ p ∈ weight_map, keepName p.1 = true →
          m.lookup (renameName p.1)
            = (shards.lookup p.2).bind (fun c => c.lookup p.1))
    ∧ extract_text_weights exampleWeightMap exampleShards
        = some [("model.layers.0.weight".toList, [1, 2]),
                ("lm_head.weight".toList, [4])] := by
  constructor
  · refine ⟨extractExpected weight_map shards,
      extract_text_weights_spec _ _ hn hc, ?_, ?_⟩
    · rw [extractExpected_keys, ← List.map_flatMap]
      exact List.Perm.map renameName groupSpec_names_perm
    · intro p hp hk
      have hkey_nodup : ((extractExpected weight_map shards).map Prod.fst).Nodup := by
        rw [extractExpected_keys, ← List.map_flatMap]
        exact extract_renamed_nodup hn
      have hpk : p ∈ weight_map.filter (fun q => keepName q.1) :=
        List.mem_filter.2 ⟨hp, by simpa using hk⟩
      obtain ⟨g, hg, hg1, hg2⟩ := groupSpec_covers p hpk
      have hmem : (renameName p.1, getPayload shards p.2 p.1)
          ∈ extractExpected weight_map shards := by
        unfold extractExpected
        refine List.mem_flatMap.2 ⟨g, hg, ?_⟩
        rw [← hg1]
        exact List.mem_map_of_mem (fun n => (renameName n, getPayload shards g.1 n)) hg2
      rw [lookup_eq_of_mem_of_nodup hkey_nodup hmem]
      obtain ⟨c, hcl, hsome⟩ := consistent_spec hc p hp hk
      obtain ⟨t, htv⟩ := Option.isSome_iff_exists.1 hsome
      unfold getPayload
      rw [hcl, Option.some_bind, htv]
      rfl
  · rfl

theorem C2_round_trip_witness :
    extract_text_weights exampleWeightMap exampleShards
      = some [("model.layers.0.weight".toList, [1, 2]),
              ("lm_head.weight".toList, [4])] :=
  (C2_round_trip exampleWeightMap exampleShards (by decide) (by decide)).2

/-- C3: a rename collision between two distinct kept source names of a weight
map is impossible (the source performs no collision check, and none is
reachable: renaming is injective on kept names), and on every collision-free
consistent index extraction succeeds. -/
theorem C3_rename_collision (weight_map : List (Name × ShardId))
    (shards : List (ShardId × List (Name × Payload)))
    (hn : (weight_map.map Prod.fst).Nodup) :
    hasRenameCollision weight_map = false
    ∧ (consistent weight_map shards = true →
        (extract_text_weights weight_map shards).isSome = true) := by
  constructor
  · rcases Bool.eq_false_or_eq_true (hasRenameCollision weight_map) with ht | hf
    · exfalso
      unfold hasRenameCollision at ht
      obtain ⟨n, hnmem, hinner⟩ := List.any_eq_true.1 ht
      obtain ⟨n', hn'mem, hb⟩ := List.any_eq_true.1 hinner
      have hb' := Bool.and_eq_true_iff.1 hb
      have hne : n ≠ n' := by simpa using hb'.1
      have heq : renameName n = renameName n' := by simpa using hb'.2
      exact hne (renameName_injOn_kept (mem_kept_keep hnmem) (mem_kept_keep hn'mem) heq)
    · exact hf
  · intro hc
    rw [extract_text_weights_spec _ _ hn hc]
    rfl

theorem C3_rename_collision_witness :
    hasRenameCollision exampleWeightMap = false
    ∧ (extract_text_weights exampleWeightMap exampleShards).isSome = true := by
  have h := C3_rename_collision exampleWeightMap exampleShards (by decide)
  exact ⟨h.1, h.2 (by decide)⟩

/-- C7: on every consistent index, extraction succeeds and the insertion order
of the renamed collection is deterministic: exactly the order given by
grouping tensors by source shard, shards in order of first occurrence while
walking the index, and names within each shard in original index order. -/
theorem C7_deterministic_order (weight_map : List (Name × ShardId))
    (shards : List (ShardId × List (Name × Payload)))
    (hn : (weight_map.map Prod.fst).Nodup)
    (hc : consistent weight_map shards = true) :
    ∃ m, extract_text_weights weight_map shards = some m
      ∧ m.map Prod.fst
          = (groupSpec (weight_map.filter (fun p => keepName p.1))).flatMap
              (fun g => g.2.map renameName) := by
  exact ⟨extractExpected weight_map shards,
    extract_text_weights_spec _ _ hn hc,
    extractExpected_keys weight_map shards⟩

theorem C7_deterministic_order_witness :
    ((extract_text_weights exampleWeightMap exampleShards).getD []).map Prod.fst
      = (groupSpec (exampleWeightMap.filter (fun p => keepName p.1))).flatMap
          (fun g => g.2.map renameName) := by
  obtain ⟨m, hm, ho⟩ :=
    C7_deterministic_order exampleWeightMap exampleShards (by decide) (by decide)
  rw [hm, Option.getD_some, ho]

/-- The observable filesystem state the script runs against: whether the input
directory exists, the parsed contents of config.json and of the shard index
manifest when those files exist, and the shard files.  A file that exists but
does not parse is outside this model. -/
structure World where
  vlDirExists : Bool
  configJson : Option JVal
  indexJson : Option JVal
  shards : List (ShardId × List (Name × Payload))

/-- Phases 1-3 of main (source lines 187-197): config derivation, weight
extraction and save; none models an uncaught exception aborting the run
before the final return. -/
def run_phases (w : World) : Option (List (Key × JVal) × List (Name × Payload)) := do
  let cfgDoc ← w.configJson
  let vl ← asObj cfgDoc
  let config ← create_text_config vl
  let idxDoc ← w.indexJson
  let idx ← asObj idxDoc
  let weight_map ← getWeightMap idx
  let weights ← extract_text_weights weight_map w.shards
  pure (config, weights)

/-- main (source lines 173-204): the two up-front existence checks return 1
before anything is written; otherwise the three phases run and on completion
the output directory has been written and 0 is returned.  The result pairs
the exit status with whether output was written; none is an uncaught
exception. -/
def main_fn (w : World) : Option (Nat × Bool) :=
  if !w.vlDirExists then some (1, false)
  else if w.configJson.isNone then some (1, false)
  else (run_phases w).map (fun _ => (0, true))

/-- C9: the entry point returns status 0 exactly when the three phases
complete, having written output; a missing input directory, or a missing
source configuration document in an existing input directory, returns a
non-zero status with no output written. -/
theorem C9_exit_contract (w : World) :
    (w.vlDirExists = false → main_fn w = some (1, false))
    ∧ (w.vlDirExists = true → w.configJson = none → main_fn w = some (1, false))
    ∧ (w.vlDirExists = true → w.configJson.isSome = true →
        (run_phases w).isSome = true → main_fn w = some (0, true)) := by
  refine ⟨fun h => ?_, fun h1 h2 => ?_, fun h1 h2 h3 => ?_⟩
  · simp [main_fn, h]
  · simp [main_fn, h1, h2]
  · obtain ⟨cj, hcj⟩ := Option.isSome_iff_exists.1 h2
    obtain ⟨r, hr⟩ := Option.isSome_iff_exists.1 h3
    simp [main_fn, h1, hcj, hr]

def worldMissingDir : World :=
  World.mk false none none []

def worldOk : World :=
  World.mk true (some (JVal.obj [])) (some (JVal.obj [])) []

theorem C9_exit_contract_witness :
    main_fn worldMissingDir = some (1, false) ∧ main_fn worldOk = some (0, true) := by
  refine ⟨(C9_exit_contract worldMissingDir).1 rfl, ?_⟩
  exact (C9_exit_contract worldOk).2.2 rfl rfl rfl
